import Mathlib

/-!
Verification of the content acquisition / verification / dependency-resolution /
extraction pipeline of the OpenVoxelStudios CLI (Rust sources under src/).

Each Rust function that the claims touch is shallowly embedded as an executable
Lean definition.  File-system and network effects are made explicit: byte
contents, cache files and directory listings become values, and every operation
returns its result together with the updated state and a log of the effects it
performed.  Machine integers are modelled as Nat with the exact overflow
behaviour of the Rust code (a u32 parse fails at 2^32).

String primitives (split, trim, lowercase, prefix and suffix tests, substring
search) are implemented structurally over the character list of a string so
that every definition evaluates inside the kernel; they model the
corresponding Rust std operations.  Rust's str::to_lowercase is modelled by
ASCII lowercasing, and trim by ASCII whitespace trimming, which agree with the
Rust originals on all ASCII data handled by this program.
-/

namespace OVCLI

/-! ## Character-list string primitives -/

/-- Split a character list at every occurrence of the separator character,
keeping empty pieces, like Rust's str::split with a char pattern. -/
def splitChar (c : Char) : List Char → List (List Char)
  | [] => [[]]
  | x :: xs =>
    if x = c then [] :: splitChar c xs
    else
      match splitChar c xs with
      | [] => [[x]]
      | h :: t => (x :: h) :: t

/-- Split a string on a separator character (Rust str::split(char)). -/
def splitStr (c : Char) (s : String) : List String :=
  (splitChar c s.data).map (fun l => String.mk l)

/-- ASCII lowercasing of a string (models Rust str::to_lowercase on the ASCII
data this program handles). -/
def toLowerStr (s : String) : String :=
  String.mk (s.data.map Char.toLower)

/-- Trim whitespace from both ends of a string (models Rust str::trim). -/
def trimStr (s : String) : String :=
  String.mk (((s.data.dropWhile Char.isWhitespace).reverse.dropWhile
    Char.isWhitespace).reverse)

/-- Does the first string start with the second (Rust str::starts_with)? -/
def startsWithStr (s pre : String) : Bool :=
  pre.data.isPrefixOf s.data

/-- Does the first string end with the second (Rust str::ends_with)? -/
def endsWithStr (s post : String) : Bool :=
  post.data.isSuffixOf s.data

/-- Does the haystack contain the needle as a contiguous substring
(Rust str::contains with a &str pattern)? -/
def containsSubStr (hay nee : String) : Bool :=
  (List.range (hay.data.length + 1)).any
    (fun i => decide ((hay.data.drop i).take nee.data.length = nee.data))

/-- Drop a suffix if present, otherwise return the string unchanged
(Rust str::strip_suffix(suf).unwrap_or(s)). -/
def stripSuffixOr (s suf : String) : String :=
  if suf.data.isSuffixOf s.data then
    String.mk (s.data.take (s.data.length - suf.data.length))
  else s

/-- Drop a known prefix from a string (callers guard with startsWithStr;
models Rust str::strip_prefix on the guarded paths). -/
def dropPreStr (s pre : String) : String :=
  String.mk (s.data.drop pre.data.length)

/-- Join a list of strings with a separator (Rust [String]::join). -/
def joinWith (sep : String) : List String → String
  | [] => ""
  | [x] => x
  | x :: xs => x ++ sep ++ joinWith sep xs

/-- Split a string into whitespace-delimited words, dropping empty pieces
(Rust str::split_whitespace). -/
def splitWhitespaceStr (s : String) : List String :=
  ((s.data.splitOnP Char.isWhitespace).filter (fun p => ¬ p = [])).map
    (fun l => String.mk l)

/-! ## Version comparator (src/mc.rs, compare_versions, lines 203-218) -/

/-- Rust u32 string parsing as used by s.parse::<u32>().ok() in
compare_versions (src/mc.rs lines 204-205): an optional leading plus sign
followed by one or more ASCII digits, and the value must be below 2^32;
every other input fails to parse. -/
def parseU32 (cs : List Char) : Option Nat :=
  let ds := if cs.headD ' ' = '+' then cs.tail else cs
  if ds.isEmpty || !(ds.all Char.isDigit) then none
  else
    let v := ds.foldl (fun a c => a * 10 + (c.toNat - 48)) 0
    if v < 2 ^ 32 then some v else none

/-- The parsed numeric segments of a version string:
v.split('.').filter_map(|s| s.parse::<u32>().ok()) from src/mc.rs lines 204-205.
Segments that fail to parse are dropped (not replaced by zero). -/
def vparts (v : String) : List Nat :=
  (splitChar '.' v.data).filterMap parseU32

/-- The comparison loop of compare_versions (src/mc.rs lines 207-215):
for i in 0..max(len1, len2), compare the i-th entries (missing entries read
as 0) and return at the first difference.  The first explicit argument is the
running index, the second the number of iterations left. -/
def cmpLoop (a b : List Nat) : Nat → Nat → Ordering
  | _, 0 => Ordering.eq
  | i, n + 1 =>
    match compare (a.getD i 0) (b.getD i 0) with
    | Ordering.eq => cmpLoop a b (i + 1) n
    | o => o

/-- compare_versions from src/mc.rs lines 203-218. -/
def compare_versions (v1 v2 : String) : Ordering :=
  cmpLoop (vparts v1) (vparts v2) 0 (max (vparts v1).length (vparts v2).length)

/-- Zero-padded positional comparison of two lists of naturals: the order of
the first unequal position, where a missing trailing position reads as 0. -/
def lexCompare : List Nat → List Nat → Ordering
  | [], [] => Ordering.eq
  | [], b :: bs =>
    match compare 0 b with
    | Ordering.eq => lexCompare [] bs
    | o => o
  | a :: as, [] =>
    match compare a 0 with
    | Ordering.eq => lexCompare as []
    | o => o
  | a :: as, b :: bs =>
    match compare a b with
    | Ordering.eq => lexCompare as bs
    | o => o
termination_by l1 l2 => l1.length + l2.length

/-! ## Path components and archive extraction (src/zipper.rs)

Archive entries are modelled by their name strings; an archive is the list of
its entry names in index order.  Paths are parsed into component lists exactly
as Rust's std::path::Path::components does on Unix: a leading slash becomes a
root component, empty pieces disappear, and a "." piece survives only in
leading position. -/

/-- One path component, mirroring std::path::Component (Unix: no prefixes). -/
inductive PComp
  | root
  | cur
  | par
  | normal (s : String)
deriving DecidableEq, Repr

/-- The os-string text of a component (Component::as_os_str). -/
def compToStr : PComp → String
  | PComp.root => "/"
  | PComp.cur => "."
  | PComp.par => ".."
  | PComp.normal s => s

/-- Classify one non-empty slash-free piece of a path. -/
def pieceToComp (p : List Char) : PComp :=
  if p = ['.'] then PComp.cur
  else if p = ['.', '.'] then PComp.par
  else PComp.normal (String.mk p)

/-- std::path::Path::components on Unix: split on '/', drop empty pieces,
keep a "." piece only when it is the leading component of a relative path,
and record a leading '/' as the root component. -/
def parseComps (s : String) : List PComp :=
  let comps := ((splitChar '/' s.data).filter (fun p => ¬ p = [])).map pieceToComp
  if s.data.headD ' ' = '/' then
    PComp.root :: comps.filter (fun c => ¬ c = PComp.cur)
  else
    match comps with
    | [] => []
    | c :: rest => c :: rest.filter (fun x => ¬ x = PComp.cur)

/-- One iteration of the first loop of extract_zip (src/zipper.rs lines
35-43): record the entry's first component string if not seen before. -/
def topDirsStep (acc : List String) (e : String) : List String :=
  match (parseComps e).head? with
  | some c => if acc.contains (compToStr c) then acc else acc ++ [compToStr c]
  | none => acc

/-- The distinct first path components of the archive's entry names, in
discovery order: the top_dirs vector built by the first loop of extract_zip
(src/zipper.rs lines 34-43); get_root_folder_name's HashSet (lines 12-21)
holds the same set of strings. -/
def topDirs (entries : List String) : List String :=
  entries.foldl topDirsStep []

/-- The strip-or-not decision of extract_zip (src/zipper.rs lines 45-49):
the single shared leading component when exactly one distinct first component
exists, and no stripping otherwise. -/
def stripDecision (entries : List String) : Option String :=
  match topDirs entries with
  | [d] => some d
  | _ => none

/-- std::path::Path::strip_prefix at the component level: succeed with the
remaining components exactly when the prefix's components lead the path. -/
def stripPre (pre cs : List PComp) : Option (List PComp) :=
  if cs.take pre.length = pre then some (cs.drop pre.length) else none

/-- std::path::Path::join at the component level: an absolute right-hand side
replaces the base entirely, otherwise the components concatenate (a
non-leading "." piece of the right-hand side disappears on re-parse). -/
def joinComps (base rel : List PComp) : List PComp :=
  if rel.head? = some PComp.root then rel
  else base ++ rel.filter (fun c => ¬ c = PComp.cur)

/-- The output path extract_zip computes for one entry (src/zipper.rs lines
51-62), as components: strip the shared leading component when the decision
says so (falling back to the full path when strip_prefix fails) and join the
result onto the destination directory. -/
def outPath (dest : List PComp) (entries : List String) (name : String) :
    List PComp :=
  let cs := parseComps name
  match stripDecision entries with
  | some d =>
    match stripPre (parseComps d) cs with
    | some stripped => joinComps dest stripped
    | none => joinComps dest cs
  | none => joinComps dest cs

/-- Path resolution: interpret "." and ".." components to obtain the file
actually touched when the operating system resolves the computed path. -/
def resolveComps (cs : List PComp) : List PComp :=
  cs.foldl
    (fun acc c =>
      match c with
      | PComp.cur => acc
      | PComp.par => acc.dropLast
      | c => acc ++ [c])
    []

/-- Is the resolved path a descendant of (or equal to) the destination? -/
def staysInside (dest out : List PComp) : Bool :=
  decide ((resolveComps out).take dest.length = dest)

/-- The depth bookkeeping of the zip crate's ZipFile::enclosed_name: a root
component rejects the name, ".." must never take the depth below zero. -/
def enclosedDepth : Nat → List PComp → Option Nat
  | d, [] => some d
  | _, PComp.root :: _ => none
  | 0, PComp.par :: _ => none
  | d + 1, PComp.par :: rest => enclosedDepth d rest
  | d, PComp.cur :: rest => enclosedDepth d rest
  | d, PComp.normal _ :: rest => enclosedDepth (d + 1) rest

/-- ZipFile::enclosed_name succeeds: no NUL byte, not absolute, and ".."
never escapes upward.  get_root_folder_name unwraps this option and so
panics on any entry for which it fails. -/
def enclosedOk (name : String) : Bool :=
  !(name.data.contains (Char.ofNat 0)) && (enclosedDepth 0 (parseComps name)).isSome

/-- get_root_folder_name from src/zipper.rs lines 8-28, over the entry-name
list and the zip path's file stem.  The unwrap of enclosed_name on line 16
panics when any entry name fails the safety check; the panic is modelled as
none.  For archives whose entries all pass the check, the HashSet of first
components holds exactly the strings of topDirs, so the singleton test and
its element coincide with extract_zip's. -/
def get_root_folder_name (entries : List String) (stem : String) :
    Option String :=
  if entries.all enclosedOk then
    match topDirs entries with
    | [d] => some d
    | _ => some stem
  else none

/-! ## Library deduplication (src/mc.rs, lines 50-152 and 457-486)

The recursive directory walk find_jar_files is modelled by its input: the
list of (file name, full path) pairs found under the libraries root, in
traversal order.  The HashMap it fills is modelled as an association list
grouped in first-insertion order; deduplication decisions are taken per
group and are independent of group iteration order. -/

/-- The allow-list of logical names eligible for deduplication
(src/mc.rs line 55). -/
def asm_libraries : List String :=
  ["asm", "asm-tree", "asm-util", "asm-analysis", "asm-commons"]

/-- Does the first character of the piece look like a version start
(part.chars().next().map_or(false, |c| c.is_ascii_digit()))? -/
def firstCharDigit (p : String) : Bool :=
  match p.data with
  | [] => false
  | c :: _ => c.isDigit

/-- extract_library_name from src/mc.rs lines 113-152. -/
def extract_library_name (filename : String) : String :=
  let n := stripSuffixOr filename ".jar"
  if startsWithStr n "asm-" && !(containsSubStr n "tree") &&
      !(containsSubStr n "util") && !(containsSubStr n "analysis") &&
      !(containsSubStr n "commons") then "asm"
  else if startsWithStr n "asm-tree-" then "asm-tree"
  else if startsWithStr n "asm-util-" then "asm-util"
  else if startsWithStr n "asm-analysis-" then "asm-analysis"
  else if startsWithStr n "asm-commons-" then "asm-commons"
  else
    let parts := splitStr '-' n
    if 1 < parts.length then
      match parts.findIdx? firstCharDigit with
      | some i => joinWith "-" (parts.take i)
      | none => n
    else n

/-- extract_version from src/mc.rs lines 155-200. -/
def extract_version (filename : String) : Option String :=
  let n := stripSuffixOr filename ".jar"
  if startsWithStr n "asm-" && !(containsSubStr n "tree") &&
      !(containsSubStr n "util") && !(containsSubStr n "analysis") &&
      !(containsSubStr n "commons") then some (dropPreStr n "asm-")
  else if startsWithStr n "asm-tree-" then some (dropPreStr n "asm-tree-")
  else if startsWithStr n "asm-util-" then some (dropPreStr n "asm-util-")
  else if startsWithStr n "asm-analysis-" then
    some (dropPreStr n "asm-analysis-")
  else if startsWithStr n "asm-commons-" then
    some (dropPreStr n "asm-commons-")
  else
    let parts := splitStr '-' n
    if 1 < parts.length then
      parts.reverse.find? (fun p => firstCharDigit p && p.data.contains '.')
    else none

/-- Does the file name carry a ".jar" extension in the sense of
std::path::Path::extension (find_jar_files, src/mc.rs line 471): the name
ends in ".jar" and has a non-empty stem before it. -/
def hasJarExt (name : String) : Bool :=
  endsWithStr name ".jar" && decide (4 < name.data.length)

/-- Append one (version, path) record to its library group, creating the
group at the end on first sight (association-list model of the HashMap
entry().or_insert_with(Vec::new).push() in src/mc.rs lines 477-480). -/
def insertGroup :
    List (String × List (String × String)) → String → String × String →
    List (String × List (String × String))
  | [], k, v => [(k, [v])]
  | (k', vs) :: rest, k, v =>
    if k' = k then (k', vs ++ [v]) :: rest else (k', vs) :: insertGroup rest k v

/-- find_jar_files (src/mc.rs lines 458-486) over the flattened traversal:
keep the .jar files, infer logical name and version from each file name
(a missing version falls back to "0.0.0"), and group by logical name. -/
def groupJars (files : List (String × String)) :
    List (String × List (String × String)) :=
  files.foldl
    (fun acc f =>
      if hasJarExt f.1 then
        insertGroup acc (extract_library_name f.1)
          ((extract_version f.1).getD "0.0.0", f.2)
      else acc)
    []

/-- The sort order versions.sort_by(|a, b| compare_versions(&a.0, &b.0))
(src/mc.rs line 76) uses: ascending by compare_versions on the version
string. -/
def versionLe (a b : String × String) : Prop :=
  compare_versions a.1 b.1 ≠ Ordering.gt

instance : DecidableRel versionLe := fun a b =>
  inferInstanceAs (Decidable (compare_versions a.1 b.1 ≠ Ordering.gt))

/-- The group sorted ascending by version.  Rust's slice::sort_by is a stable
sort, and insertion sort is stable, so for the total preorder versionLe both
produce the same list. -/
def sortGroup (vs : List (String × String)) : List (String × String) :=
  List.insertionSort versionLe vs

/-- The version string of the entry the code keeps: versions.last().unwrap().0
after the sort (src/mc.rs line 79). -/
def keptVersion (vs : List (String × String)) : String :=
  ((sortGroup vs).getLast?.map Prod.fst).getD ""

/-- The (version, path) records removed from one group by the body of
deduplicate_libraries (src/mc.rs lines 61-107): nothing for a name off the
allow-list or a group of at most one member; otherwise every record before
the last of the sorted group whose version string differs from the kept
version string. -/
def processGroupPairs (libName : String) (vs : List (String × String)) :
    List (String × String) :=
  if !(asm_libraries.contains libName) then []
  else if 1 < vs.length then
    let sorted := sortGroup vs
    (sorted.take (sorted.length - 1)).filter
      (fun v => ¬ v.1 = keptVersion vs)
  else []

/-- All (version, path) records deduplicate_libraries removes from the
library tree described by the given (file name, path) list. -/
def deduplicateRemoved (files : List (String × String)) :
    List (String × String) :=
  (groupJars files).flatMap (fun g => processGroupPairs g.1 g.2)

/-! ## Remote catalog search (src/map.rs, find_maps, lines 39-79)

fetch_maps performs network I/O; find_maps is modelled over the catalog list
it would return. -/

/-- The catalog entry type (struct Map, src/map.rs lines 16-27). -/
structure Map where
  id : String
  name : String
  description : String
  tags : List String
  map_type : String
  version : String
deriving DecidableEq, Repr

/-- The exact-match test of the first loop of find_maps (src/map.rs lines
45-52): identifier, name, or any tag equals the lowercased query. -/
def isExactMatch (q : String) (m : Map) : Bool :=
  toLowerStr m.id = q || toLowerStr m.name = q ||
    m.tags.any (fun t => toLowerStr t = q)

/-- The concatenated search text of one descriptor:
format!("{} {} {}", id, name, tags.join(" ")).to_lowercase()
(src/map.rs line 61). -/
def allFields (m : Map) : String :=
  toLowerStr (m.id ++ " " ++ m.name ++ " " ++ joinWith " " m.tags)

/-- match_score from src/map.rs lines 60-63: the number of keywords occurring
as substrings of the descriptor's concatenated search text. -/
def match_score (m : Map) (keywords : List String) : Nat :=
  keywords.countP (fun k => containsSubStr (allFields m) k)

/-- find_maps from src/map.rs lines 39-79, over the fetched catalog: collect
exact matches in catalog order; if any exist return them, otherwise score
every descriptor by whitespace-delimited keywords and return the
positive-score descriptors in catalog order, or none when there are none. -/
def find_maps (maps : List Map) (input : String) : Option (List Map) :=
  let inputL := toLowerStr input
  let exact_matches :=
    maps.foldl (fun acc m => if isExactMatch inputL m then acc ++ [m] else acc)
      []
  if !exact_matches.isEmpty then some exact_matches
  else
    let keywords := (splitWhitespaceStr inputL).map toLowerStr
    let scored :=
      ((maps.map (fun m => (m, match_score m keywords))).filter
        (fun p => 0 < p.2))
    if scored.isEmpty then none
    else some (scored.map Prod.fst)

/-! ## Map download and cache verification (src/map.rs, lines 108-219)

The network and the hash are abstracted: netBytes is the byte sequence the
download endpoint returns for the map id, hash the content digest function
(getsha256 from src/filesys.rs reading a file's bytes), expectedText the body
of the published .sha256 file.  The cache file for the id is modelled by an
Option holding its byte content; writing, hashing and deleting the file act
on that value. -/

/-- download_map from src/map.rs lines 108-136: write the downloaded bytes to
the cache path, hash the written file, and on trimmed-hash mismatch delete
the file and fail; on match return the cache path.  The returned pair is
(result, cache file content after the call). -/
def download_map (hash : List Nat → String) (id : String)
    (netBytes : List Nat) (should_hash : String) :
    Except String String × Option (List Nat) :=
  let written : Option (List Nat) := some netBytes
  let local_hash := hash netBytes
  if ¬ trimStr local_hash = trimStr should_hash then
    (Except.error "Downloaded map hash does not match expected hash.", none)
  else
    (Except.ok (id ++ ".zip"), written)

/-- The cache phase of install_map (src/map.rs lines 202-215): when a cache
file exists re-verify its trimmed hash and reuse on match, otherwise delete
and re-download; when no cache file exists, download.  The result triple is
(cache file content after the call, number of network downloads performed). -/
def install_map_cache_phase (hash : List Nat → String) (id : String)
    (netBytes : List Nat) (expected_hash : String)
    (cache : Option (List Nat)) : Option (List Nat) × Nat :=
  match cache with
  | some bytes =>
    if trimStr (hash bytes) = trimStr expected_hash then (some bytes, 0)
    else ((download_map hash id netBytes expected_hash).2, 1)
  | none => ((download_map hash id netBytes expected_hash).2, 1)

/-! ## Mod dependency resolution (src/mods.rs)

The Modrinth version-resolution endpoint is abstracted by a function from mod
identifier to the first release returned for the target version: its first
file's download url and its dependency list of (dependency_type, project_id)
pairs.  Network transport errors are not modelled (the claims under study
concern the success path).  The while-let work loop runs on explicit fuel;
a some result means the loop exited because the queue emptied, none means the
fuel ran out before that. -/

/-- The base mod name list MODS (src/mods.rs lines 5-13). -/
def MODS : List String :=
  ["dcwa", "fabric-api", "lithium", "iris", "modmenu", "sodium",
   "placeholder-api"]

/-- The base mod identifier list MODS_ID (src/mods.rs lines 14-16). -/
def MODS_ID : List String :=
  ["HdwRs3kc", "P7dR8mSH", "gvQqBUqZ", "YL57xq9U", "mOgUt4GM", "AANobbMI",
   "eXts2L7r"]

/-- One resolved download (struct ModDownload, src/mods.rs lines 18-22). -/
structure ModDownload where
  name : String
  url : String
deriving DecidableEq, Repr

/-- The first release the version endpoint returns for a mod id: the url of
its first file and its (dependency_type, project_id) pairs. -/
structure Release where
  url : String
  deps : List (String × String)

/-- fetch_mod_version_data from src/mods.rs lines 24-66: take the first
release's first file url and collect its required dependencies' project ids,
excluding ids on the fixed base list (the MODS_ID check on line 49). -/
def fetch_mod_version_data (baseIds : List String)
    (releases : String → Option Release) (mod_id : String) :
    Option (String × List String) :=
  (releases mod_id).map (fun r =>
    (r.url,
      r.deps.filterMap (fun d =>
        if d.1 = "required" && !(baseIds.contains d.2) then some d.2
        else none)))

/-- The while-let loop of get_mod_download_urls (src/mods.rs lines 76-96).
The queue models the to_process Vec as a stack whose head is the next pop;
pushed dependencies are reversed so that head-popping visits them in the
same order Vec push/pop does.  Accumulates the download descriptors and the
log of identifiers the version endpoint was queried for. -/
def resolveLoop (baseIds : List String) (releases : String → Option Release) :
    Nat → List String → List String → List ModDownload → List String →
    Option (List ModDownload × List String)
  | 0, _, _, _, _ => none
  | _ + 1, [], _, downloads, queries => some (downloads, queries)
  | fuel + 1, mod_id :: rest, visited, downloads, queries =>
    if visited.contains mod_id then
      resolveLoop baseIds releases fuel rest visited downloads queries
    else
      let visited' := mod_id :: visited
      match fetch_mod_version_data baseIds releases mod_id with
      | some (url, deps) =>
        resolveLoop baseIds releases fuel
          ((deps.filter (fun d => !(visited'.contains d))).reverse ++ rest)
          visited' (downloads ++ [⟨mod_id, url⟩]) (queries ++ [mod_id])
      | none =>
        resolveLoop baseIds releases fuel rest visited' downloads
          (queries ++ [mod_id])

/-- get_mod_download_urls from src/mods.rs lines 68-99, seeded with the given
base name list (the source seeds with MODS and excludes MODS_ID). -/
def get_mod_download_urls (baseMods baseIds : List String)
    (releases : String → Option Release) (fuel : Nat) :
    Option (List ModDownload × List String) :=
  resolveLoop baseIds releases fuel baseMods.reverse [] [] []

/-- The version endpoint of the two-mod cycle scenario: A's only release
requires B, B's only release requires A, nothing else resolves. -/
def releasesCycle (a b ua ub : String) : String → Option Release :=
  fun id =>
    if id = a then some ⟨ua, [("required", b)]⟩
    else if id = b then some ⟨ub, [("required", a)]⟩
    else none

/-! ## download_mods (src/mods.rs, lines 101-146) with explicit state

The mods directory is modelled by the raw content of the .ovl used-version
marker file (none when absent) and the list of file names present; every
file-system and network effect is logged. -/

/-- One observable effect of download_mods. -/
inductive ModsEvent
  | mkdirMods
  | removeFile (name : String)
  | netQuery (id : String)
  | netDownload (url : String)
  | writeFile (name : String)
deriving DecidableEq, Repr

/-- The mods directory state. -/
structure ModsFS where
  marker : Option String
  files : List String
deriving DecidableEq, Repr

/-- get_used_version_save from src/filesys.rs lines 50-63: the trimmed
content of the .ovl marker file when it exists. -/
def get_used_version_save (fs : ModsFS) : Option String :=
  fs.marker.map trimStr

/-- The removal pass of download_mods (src/mods.rs lines 116-126): for each
base mod name, delete the matching -AUTOUPDATE.jar when present. -/
def removePass (fs : ModsFS) : ModsFS × List ModsEvent :=
  MODS.foldl
    (fun st mod_name =>
      let fname := mod_name ++ "-AUTOUPDATE.jar"
      if st.1.files.contains fname then
        ({ st.1 with files := st.1.files.filter (fun f => ¬ f = fname) },
          st.2 ++ [ModsEvent.removeFile fname])
      else st)
    (fs, [])

/-- The download pass of download_mods (src/mods.rs lines 130-143): fetch
each resolved url and write the -AUTOUPDATE.jar file. -/
def downloadPass (downloads : List ModDownload) (fs : ModsFS) :
    ModsFS × List ModsEvent :=
  downloads.foldl
    (fun st d =>
      let fname := d.name ++ "-AUTOUPDATE.jar"
      ({ st.1 with files := st.1.files ++ [fname] },
        st.2 ++ [ModsEvent.netDownload d.url, ModsEvent.writeFile fname]))
    (fs, [])

/-- The non-cached path of download_mods (src/mods.rs lines 108-145): create
the mods directory, remove the previous auto-updated jars, resolve the
download urls and download and write each one. -/
def download_mods_full (releases : String → Option Release) (fuel : Nat)
    (fs : ModsFS) : Option (Except Unit Unit × ModsFS × List ModsEvent) :=
  let st1 := removePass fs
  match get_mod_download_urls MODS MODS_ID releases fuel with
  | none => none
  | some (downloads, queries) =>
    let st2 := downloadPass downloads st1.1
    some (Except.ok (), st2.1,
      ModsEvent.mkdirMods :: st1.2 ++ queries.map ModsEvent.netQuery ++ st2.2)

/-- download_mods from src/mods.rs lines 101-146: when the marker matches the
requested version, return success immediately; otherwise ensure the mods
directory, remove the previous auto-updated jars, resolve the download urls
(on the given fuel) and download and write each one.  Returns none only when
the resolution loop's fuel runs out. -/
def download_mods (releases : String → Option Release) (fuel : Nat)
    (version : String) (fs : ModsFS) :
    Option (Except Unit Unit × ModsFS × List ModsEvent) :=
  match get_used_version_save fs with
  | some prev =>
    if prev = version then some (Except.ok (), fs, [])
    else download_mods_full releases fuel fs
  | none => download_mods_full releases fuel fs

/-! ## Auxiliary mathematical notions used by the theorems -/

/-- The u32 overflow bound. -/
def u32Bound : Nat := 2 ^ 32

/-- Pad a list with trailing zeros to the given length. -/
def padTo (n : Nat) (l : List Nat) : List Nat :=
  l ++ List.replicate (n - l.length) 0

/-- Base-u32Bound value of a digit list (most significant first). -/
def valList : List Nat → Nat
  | [] => 0
  | a :: as => a * u32Bound ^ as.length + valList as

/-! ## Theorems -/

/-- C9: compare("1.2.0", "1.10.0") is Less — segments compare as numbers,
not lexicographically — and compare("21", "21.0.0") is Equal — missing
trailing segments count as 0. -/
theorem compare_versions_examples :
    compare_versions "1.2.0" "1.10.0" = Ordering.lt ∧
    compare_versions "21" "21.0.0" = Ordering.eq := by
  decide

/-- C1: at a concrete failing input the extraction routine writes outside the
destination directory.  For the archive with entries ok.txt and ../evil.txt
extracted to /home/user/dest, the two distinct first components disable
stripping, the second entry's computed output path is dest/../evil.txt, and
resolving it lands on /home/user/evil.txt — a sibling of the destination,
not a descendant. -/
theorem extract_zip_escapes_destination :
    resolveComps (outPath
        [PComp.normal "home", PComp.normal "user", PComp.normal "dest"]
        ["ok.txt", "../evil.txt"] "../evil.txt") =
      [PComp.normal "home", PComp.normal "user", PComp.normal "evil.txt"] ∧
    staysInside [PComp.normal "home", PComp.normal "user", PComp.normal "dest"]
      (outPath [PComp.normal "home", PComp.normal "user", PComp.normal "dest"]
        ["ok.txt", "../evil.txt"] "../evil.txt") = false := by
  decide

/-- C2 counterexample: the claim's reading — an unparsable segment takes the
value 0 at its own position — would make "1.x.2" equal to "1.0.2", but the
code drops the unparsable segment, shifting "2" into position 1, and returns
Greater. -/
theorem compare_versions_drops_bad_segment :
    compare_versions "1.x.2" "1.0.2" = Ordering.gt ∧
    vparts "1.x.2" = [1, 2] := by
  decide

/-- C4 counterexample: for the archive with entries "a" and "/b" (two
distinct first components, so the claim demands every output path equal the
entry path verbatim under the destination "d"), the code's Path::join places
the absolute entry "/b" at the filesystem root, not under the destination. -/
theorem extract_zip_absolute_entry_replaces_destination :
    topDirs ["a", "/b"] = ["a", "/"] ∧
    outPath [PComp.normal "d"] ["a", "/b"] "/b" =
      [PComp.root, PComp.normal "b"] ∧
    staysInside [PComp.normal "d"]
      (outPath [PComp.normal "d"] ["a", "/b"] "/b") = false := by
  decide

/-- C6 counterexample: a directory holding the allow-listed library asm at
the same version 9.6 in two places forms a group of two members, yet the
code removes neither file — the claim's "deletes every file except the
single highest-version one" demands one removal here. -/
theorem deduplicate_keeps_tied_highest_versions :
    groupJars [("asm-9.6.jar", "p1"), ("asm-9.6.jar", "p2")] =
      [("asm", [("9.6", "p1"), ("9.6", "p2")])] ∧
    deduplicateRemoved [("asm-9.6.jar", "p1"), ("asm-9.6.jar", "p2")] = [] := by
  decide

/-- C7 counterexample: the archive whose sole entry is "../x" has exactly one
distinct first component ("..", which the extraction routine would strip),
yet root-name inference does not return it: the enclosed_name unwrap panics
on the unsafe entry (modelled as none). -/
theorem get_root_folder_name_panics_on_unsafe_entry :
    get_root_folder_name ["../x"] "z" = none ∧
    stripDecision ["../x"] = some ".." := by
  decide

/-- C5: dependency resolution seeded with base set containing only A, where
A's required dependencies are exactly B and B's required dependencies are
exactly A, terminates — on fuel 3 the work loop already exits through the
empty-queue case (a some result; none would mean the fuel ran out) — and
produces the download descriptors of A and B exactly once each, with the
version endpoint queried exactly once for A and once for B. -/
theorem resolve_cycle_terminates (a b ua ub : String) (h : ¬ a = b) :
    get_mod_download_urls [a] [a] (releasesCycle a b ua ub) 3 =
      some ([⟨a, ua⟩, ⟨b, ub⟩], [a, b]) := by
  have hba : ¬ b = a := fun e => h e.symm
  simp [get_mod_download_urls, resolveLoop, fetch_mod_version_data,
    releasesCycle, h, hba]

/-- Witness for C5: the cycle scenario at the concrete identifiers A and B. -/
theorem resolve_cycle_terminates_witness :
    get_mod_download_urls ["A"] ["A"] (releasesCycle "A" "B" "uA" "uB") 3 =
      some ([⟨"A", "uA"⟩, ⟨"B", "uB"⟩], ["A", "B"]) :=
  resolve_cycle_terminates "A" "B" "uA" "uB" (by decide)

/-- C10: when the used-version marker file exists and its trimmed content
equals the requested version, download_mods returns success immediately with
the mods directory untouched and an empty effect log — no file removed, no
directory created, no network query or download, no file written — whatever
the rest of the directory contains. -/
theorem download_mods_marker_short_circuit
    (releases : String → Option Release) (fuel : Nat) (version : String)
    (fs : ModsFS) (h : get_used_version_save fs = some version) :
    download_mods releases fuel version fs = some (Except.ok (), fs, []) := by
  unfold download_mods
  rw [h]
  simp

/-- Witness for C10: marker content " 1.21 \n" trims to the requested
version 1.21, and the stale jar in the directory survives untouched. -/
theorem download_mods_marker_short_circuit_witness :
    download_mods (fun _ => none) 0 "1.21"
        ⟨some " 1.21 \n", ["sodium-AUTOUPDATE.jar"]⟩ =
      some (Except.ok (), ⟨some " 1.21 \n", ["sodium-AUTOUPDATE.jar"]⟩, []) :=
  download_mods_marker_short_circuit (fun _ => none) 0 "1.21"
    ⟨some " 1.21 \n", ["sodium-AUTOUPDATE.jar"]⟩ (by decide)

/-- C3: whenever the computed digest differs from the expected digest even
under trimming and lowercasing (a case- and whitespace-insensitive
comparison), download_map deletes the cache file it wrote and returns the
integrity error rather than a path; and the cache phase of a subsequent
install_map call, finding no cached file, performs a fresh download (one
network download, zero reuse). -/
theorem download_map_integrity (hash : List Nat → String) (id : String)
    (netBytes : List Nat) (expected : String)
    (h : ¬ toLowerStr (trimStr (hash netBytes)) =
      toLowerStr (trimStr expected)) :
    (download_map hash id netBytes expected).1 =
      Except.error "Downloaded map hash does not match expected hash." ∧
    (download_map hash id netBytes expected).2 = none ∧
    install_map_cache_phase hash id netBytes expected none = (none, 1) := by
  have hne : ¬ trimStr (hash netBytes) = trimStr expected :=
    fun e => h (by rw [e])
  refine ⟨?_, ?_, ?_⟩ <;>
    simp [download_map, install_map_cache_phase, hne]

/-- Witness for C3: a digest function returning "aa" against expected digest
"bb". -/
theorem download_map_integrity_witness :
    (download_map (fun _ => "aa") "m" [1] "bb").2 = none ∧
    install_map_cache_phase (fun _ => "aa") "m" [1] "bb" none = (none, 1) :=
  ⟨(download_map_integrity (fun _ => "aa") "m" [1] "bb" (by decide)).2.1,
   (download_map_integrity (fun _ => "aa") "m" [1] "bb" (by decide)).2.2⟩

/-- C7 (amended): for every archive all of whose entry names pass the zip
enclosed-name safety check, root-name inference returns the sole shared
first component when extraction strips one, and the archive's base filename
when extraction strips nothing — so it names a stripped component exactly
when extraction strips that component.  (On archives with an unsafe entry
name the inference panics instead of returning, see the counterexample.) -/
theorem get_root_folder_name_agrees (entries : List String) (stem : String)
    (h : entries.all enclosedOk = true) :
    get_root_folder_name entries stem =
      some ((stripDecision entries).getD stem) := by
  unfold get_root_folder_name stripDecision
  rw [if_pos h]
  rcases htd : topDirs entries with _ | ⟨d, _ | ⟨e, t⟩⟩ <;> simp

/-- Witness for C7: a safe two-entry archive sharing the top directory foo. -/
theorem get_root_folder_name_agrees_witness :
    get_root_folder_name ["foo/a", "foo/b"] "z" =
      some ((stripDecision ["foo/a", "foo/b"]).getD "z") :=
  get_root_folder_name_agrees ["foo/a", "foo/b"] "z" (by decide)

/-- Accumulating matches by pushing onto a list is filtering. -/
theorem foldl_push_filter {α : Type} (p : α → Bool) :
    ∀ (l : List α) (acc : List α),
    l.foldl (fun acc m => if p m then acc ++ [m] else acc) acc =
      acc ++ l.filter p := by
  intro l
  induction l with
  | nil => simp
  | cons x xs ih =>
    intro acc
    by_cases h : p x <;> simp [h, ih]

/-- Scoring every element, keeping positive scores and projecting the
element is filtering by positive score. -/
theorem scored_map_fst {α : Type} (s : α → Nat) :
    ∀ l : List α,
    ((l.map (fun m => (m, s m))).filter (fun p => decide (0 < p.2))).map
        Prod.fst =
      l.filter (fun m => decide (0 < s m)) := by
  intro l
  induction l with
  | nil => simp
  | cons x xs ih =>
    by_cases h : 0 < s x <;> simp [h, ih]

/-- C8: find_maps is case-insensitive (its result depends only on the
lowercased query, second conjunct) and returns exactly the exact matches —
descriptors whose identifier, name, or a tag equals the lowercased query —
whenever at least one exists; otherwise it splits the query on whitespace
into keywords, scores each descriptor by how many keywords occur as
substrings of the concatenation of its identifier, name and tags, and
returns exactly the descriptors with positive score (none when every score
is zero). -/
theorem find_maps_spec (maps : List Map) (input : String) :
    (find_maps maps input =
      (if maps.filter (isExactMatch (toLowerStr input)) = [] then
        (if maps.filter (fun m => decide (0 < match_score m
              ((splitWhitespaceStr (toLowerStr input)).map toLowerStr))) = []
         then none
         else some (maps.filter (fun m => decide (0 < match_score m
              ((splitWhitespaceStr (toLowerStr input)).map toLowerStr)))))
       else some (maps.filter (isExactMatch (toLowerStr input))))) ∧
    (∀ input2, toLowerStr input2 = toLowerStr input →
        find_maps maps input2 = find_maps maps input) := by
  constructor
  · simp only [find_maps]
    rw [foldl_push_filter, List.nil_append]
    have hmap := scored_map_fst
      (fun m => match_score m
        ((splitWhitespaceStr (toLowerStr input)).map toLowerStr)) maps
    by_cases hex : maps.filter (isExactMatch (toLowerStr input)) = []
    · have hexe : (maps.filter (isExactMatch (toLowerStr input))).isEmpty =
          true := List.isEmpty_iff.mpr hex
      by_cases hsc : maps.filter (fun m => decide (0 < match_score m
          ((splitWhitespaceStr (toLowerStr input)).map toLowerStr))) = []
      · have hs0 : (maps.map (fun m => (m, match_score m
            ((splitWhitespaceStr (toLowerStr input)).map toLowerStr)))).filter
              (fun p => decide (0 < p.2)) = [] :=
          List.map_eq_nil_iff.mp (hmap.trans hsc)
        rw [hexe, hs0, hex, hsc]
        simp
      · have hs1 : ((maps.map (fun m => (m, match_score m
            ((splitWhitespaceStr (toLowerStr input)).map toLowerStr)))).filter
              (fun p => decide (0 < p.2))).isEmpty = false := by
          rw [Bool.eq_false_iff]
          intro he
          exact hsc (by rw [← hmap, List.isEmpty_iff.mp he]; simp)
        rw [hexe, hs1, hmap]
        simp [hex, hsc]
    · have hexe : (maps.filter (isExactMatch (toLowerStr input))).isEmpty =
          false := by
        rw [Bool.eq_false_iff]
        intro he
        exact hex (List.isEmpty_iff.mp he)
      rw [hexe]
      simp [hex]
  · intro input2 h
    simp only [find_maps]
    rw [h]

/-- Witness for C8: the upper-case query SKY finds the same result as sky on
the one-map catalog from the spec's example. -/
theorem find_maps_spec_witness :
    find_maps [⟨"sky", "Sky Wars", "d", ["pvp"], "map", "1.20"⟩] "SKY" =
      find_maps [⟨"sky", "Sky Wars", "d", ["pvp"], "map", "1.20"⟩] "sky" :=
  (find_maps_spec [⟨"sky", "Sky Wars", "d", ["pvp"], "map", "1.20"⟩]
    "sky").2 "SKY" (by decide)

theorem splitChar_sep_not_mem (c : Char) :
    ∀ (l : List Char), ∀ p ∈ splitChar c l, c ∉ p := by
  intro l
  induction l with
  | nil =>
    intro p hp
    simp [splitChar] at hp
    simp [hp]
  | cons x xs ih =>
    intro p hp
    by_cases hx : x = c
    · rw [splitChar, if_pos hx] at hp
      rcases List.mem_cons.mp hp with hp | hp
      · simp [hp]
      · exact ih p hp
    · rw [splitChar, if_neg hx] at hp
      rcases hsp : splitChar c xs with _ | ⟨h, t⟩
      · rw [hsp] at hp
        simp at hp
        intro hc
        rw [hp] at hc
        rcases List.mem_cons.mp hc with hc | hc
        · exact hx hc.symm
        · simp at hc
      · rw [hsp] at hp
        rcases List.mem_cons.mp hp with hp | hp
        · intro hc
          rw [hp] at hc
          rcases List.mem_cons.mp hc with hc | hc
          · exact hx hc.symm
          · exact ih h (by rw [hsp]; exact List.mem_cons_self h t) hc
        · exact ih p (by rw [hsp]; exact List.mem_cons_of_mem h hp)

theorem splitChar_of_not_mem (c : Char) :
    ∀ (l : List Char), c ∉ l → splitChar c l = [l] := by
  intro l
  induction l with
  | nil => intro; rfl
  | cons x xs ih =>
    intro h
    have hx : ¬ x = c := fun e => h (by rw [e]; exact List.mem_cons_self c xs)
    have hxs : c ∉ xs := fun e => h (List.mem_cons_of_mem x e)
    rw [splitChar, if_neg hx, ih hxs]

theorem pieceToComp_ne_root (p : List Char) : ¬ pieceToComp p = PComp.root := by
  unfold pieceToComp
  split
  · simp
  · split <;> simp

theorem mem_parseComps_cases {c : PComp} {s : String} (h : c ∈ parseComps s) :
    c = PComp.root ∨ c = PComp.cur ∨ c = PComp.par ∨
    ∃ p, c = PComp.normal (String.mk p) ∧ ¬ p = [] ∧ '/' ∉ p ∧
      ¬ p = ['.'] ∧ ¬ p = ['.', '.'] := by
  have key : ∀ x ∈ ((splitChar '/' s.data).filter
      (fun p => ¬ p = [])).map pieceToComp,
      x = PComp.cur ∨ x = PComp.par ∨
      ∃ p, x = PComp.normal (String.mk p) ∧ ¬ p = [] ∧ '/' ∉ p ∧
        ¬ p = ['.'] ∧ ¬ p = ['.', '.'] := by
    intro x hx
    rcases List.mem_map.mp hx with ⟨p, hp, hpc⟩
    have hpne : ¬ p = [] := by
      have := (List.mem_filter.mp hp).2
      simpa using this
    have hpmem : p ∈ splitChar '/' s.data := (List.mem_filter.mp hp).1
    have hslash : '/' ∉ p := splitChar_sep_not_mem '/' s.data p hpmem
    unfold pieceToComp at hpc
    by_cases h1 : p = ['.']
    · rw [if_pos h1] at hpc
      left; exact hpc.symm
    · rw [if_neg h1] at hpc
      by_cases h2 : p = ['.', '.']
      · rw [if_pos h2] at hpc
        right; left; exact hpc.symm
      · rw [if_neg h2] at hpc
        right; right
        exact ⟨p, hpc.symm, hpne, hslash, h1, h2⟩
  simp only [parseComps] at h
  by_cases hr : s.data.headD ' ' = '/'
  · rw [if_pos hr] at h
    rcases List.mem_cons.mp h with h | h
    · left; exact h
    · have := key c (List.mem_of_mem_filter h)
      tauto
  · rw [if_neg hr] at h
    rcases hcm : ((splitChar '/' s.data).filter
        (fun p => ¬ p = [])).map pieceToComp with _ | ⟨c0, rest⟩
    · rw [hcm] at h
      simp at h
    · rw [hcm] at h
      rcases List.mem_cons.mp h with h | h
      · have := key c (by rw [hcm, h]; exact List.mem_cons_self c0 rest)
        tauto
      · have := key c (by
          rw [hcm]
          exact List.mem_cons_of_mem c0 (List.mem_of_mem_filter h))
        tauto

theorem parseComps_roundtrip {c : PComp} {s : String} (h : c ∈ parseComps s) :
    parseComps (compToStr c) = [c] := by
  rcases mem_parseComps_cases h with h1 | h1 | h1 | ⟨p, hc, hne, hslash, h1, h2⟩
  · rw [h1]; decide
  · rw [h1]; decide
  · rw [h1]; decide
  · rw [hc]
    show parseComps (String.mk p) = [PComp.normal (String.mk p)]
    have hdata : (String.mk p).data = p := rfl
    have hhd : ¬ (String.mk p).data.headD ' ' = '/' := by
      rw [hdata]
      intro hh
      rcases p with _ | ⟨a, q⟩
      · exact hne rfl
      · simp at hh
        exact hslash (by rw [hh]; exact List.mem_cons_self '/' q)
    simp only [parseComps, hdata]
    rw [if_neg hhd, splitChar_of_not_mem '/' p hslash]
    have : [p].filter (fun q => ¬ q = []) = [p] := by
      simp [hne]
    rw [this]
    simp only [List.map]
    have hpc : pieceToComp p = PComp.normal (String.mk p) := by
      unfold pieceToComp
      rw [if_neg h1, if_neg h2]
    rw [hpc]
    rfl

theorem parseComps_tail_facts (s : String) :
    ∀ x ∈ (parseComps s).tail, ¬ x = PComp.cur ∧ ¬ x = PComp.root := by
  intro x hx
  have hmap : ∀ y ∈ ((splitChar '/' s.data).filter
      (fun p => ¬ p = [])).map pieceToComp, ¬ y = PComp.root := by
    intro y hy
    rcases List.mem_map.mp hy with ⟨p, _, hpc⟩
    rw [← hpc]
    exact pieceToComp_ne_root p
  simp only [parseComps] at hx
  by_cases hr : s.data.headD ' ' = '/'
  · rw [if_pos hr] at hx
    simp only [List.tail_cons] at hx
    have h1 := (List.mem_filter.mp hx).2
    have h2 := List.mem_of_mem_filter hx
    constructor
    · simpa using h1
    · exact hmap x h2
  · rw [if_neg hr] at hx
    rcases hcm : ((splitChar '/' s.data).filter
        (fun p => ¬ p = [])).map pieceToComp with _ | ⟨c0, rest⟩
    · rw [hcm] at hx
      simp at hx
    · rw [hcm] at hx
      simp only [List.tail_cons] at hx
      have h1 := (List.mem_filter.mp hx).2
      have h2 := List.mem_of_mem_filter hx
      constructor
      · simpa using h1
      · exact hmap x (by rw [hcm]; exact List.mem_cons_of_mem c0 h2)

theorem topDirs_foldl_const (c : PComp) :
    ∀ (es : List String) (acc : List String),
    (∀ e ∈ es, (parseComps e).head? = some c) → compToStr c ∈ acc →
    es.foldl topDirsStep acc = acc := by
  intro es
  induction es with
  | nil => intro acc _ _; rfl
  | cons e rest ih =>
    intro acc hall hmem
    have hstep : topDirsStep acc e = acc := by
      unfold topDirsStep
      rw [hall e (List.mem_cons_self e rest)]
      show (if acc.contains (compToStr c) = true then acc
        else acc ++ [compToStr c]) = acc
      have hct : acc.contains (compToStr c) = true := by
        simp [List.contains, List.elem_iff, hmem]
      rw [hct]
      simp
    rw [List.foldl_cons, hstep]
    exact ih acc (fun x hx => hall x (List.mem_cons_of_mem e hx)) hmem

theorem topDirs_single (entries : List String) (c : PComp)
    (hne : ¬ entries = [])
    (hall : ∀ e ∈ entries, (parseComps e).head? = some c) :
    topDirs entries = [compToStr c] := by
  rcases entries with _ | ⟨e0, rest⟩
  · exact absurd rfl hne
  · unfold topDirs
    rw [List.foldl_cons]
    have hstep : topDirsStep [] e0 = [compToStr c] := by
      unfold topDirsStep
      rw [hall e0 (List.mem_cons_self e0 rest)]
      rfl
    rw [hstep]
    exact topDirs_foldl_const c rest [compToStr c]
      (fun x hx => hall x (List.mem_cons_of_mem e0 hx))
      (List.mem_cons_self _ _)

/-- C4 (amended): for every archive whose entries all share one first path
component, extraction strips that component from every output path (first
conjunct; the strip decision names exactly that component); for every
archive whose distinct-first-component count is not one, each output path is
the destination joined with the entry path, where joining follows
Path::join: a relative entry path goes verbatim under the destination, but
an absolute entry path replaces the destination entirely (see the
counterexample). -/
theorem extract_zip_strip_spec (dest : List PComp) (entries : List String)
    (c : PComp) :
    ((¬ entries = []) → (∀ e ∈ entries, (parseComps e).head? = some c) →
      stripDecision entries = some (compToStr c) ∧
      ∀ e ∈ entries, outPath dest entries e = dest ++ (parseComps e).tail) ∧
    ((topDirs entries).length ≠ 1 →
      ∀ e ∈ entries, outPath dest entries e = joinComps dest (parseComps e)) := by
  constructor
  · intro hne hall
    have htd : topDirs entries = [compToStr c] := topDirs_single entries c hne hall
    have hsd : stripDecision entries = some (compToStr c) := by
      unfold stripDecision
      rw [htd]
    refine ⟨hsd, ?_⟩
    intro e he
    have hh := hall e he
    rcases hcs : parseComps e with _ | ⟨c0, tl⟩
    · rw [hcs] at hh
      simp at hh
    · rw [hcs] at hh
      have hc0 : c0 = c := by simpa using hh
      subst hc0
      have hrt : parseComps (compToStr c0) = [c0] :=
        parseComps_roundtrip (by rw [hcs]; exact List.mem_cons_self c0 tl)
      have htl : ∀ x ∈ tl, ¬ x = PComp.cur ∧ ¬ x = PComp.root := by
        intro x hx
        exact parseComps_tail_facts e x (by rw [hcs]; exact hx)
      have hsp : stripPre [c0] (c0 :: tl) = some tl := by
        unfold stripPre
        simp
      simp only [outPath, hsd, hrt, hcs, hsp, List.tail_cons]
      unfold joinComps
      have hhead : ¬ tl.head? = some PComp.root := by
        rcases tl with _ | ⟨y, ys⟩
        · simp
        · simp only [List.head?_cons]
          intro hy
          have hy2 : y = PComp.root := by simpa using hy
          exact (htl y (List.mem_cons_self y ys)).2 hy2
      rw [if_neg hhead]
      congr 1
      apply List.filter_eq_self.mpr
      intro a ha
      simpa using (htl a ha).1
  · intro hlen e he
    have hsd : stripDecision entries = none := by
      unfold stripDecision
      rcases htd : topDirs entries with _ | ⟨d, _ | ⟨d2, t⟩⟩
      · rfl
      · rw [htd] at hlen
        simp at hlen
      · rfl
    simp only [outPath, hsd]

/-- Witness for C4: a two-entry archive sharing top directory foo extracted
under d. -/
theorem extract_zip_strip_spec_witness :
    outPath [PComp.normal "d"] ["foo/a.txt", "foo/b.txt"] "foo/a.txt" =
      [PComp.normal "d"] ++ (parseComps "foo/a.txt").tail :=
  ((extract_zip_strip_spec [PComp.normal "d"] ["foo/a.txt", "foo/b.txt"]
      (PComp.normal "foo")).1 (by decide) (by decide)).2 "foo/a.txt"
    (by decide)

theorem getD_headD_drop (l : List Nat) :
    ∀ i : Nat, l.getD i 0 = (l.drop i).headD 0 := by
  induction l with
  | nil => intro i; simp
  | cons x xs ih =>
    intro i
    rcases i with _ | j
    · simp
    · simp [ih]

theorem cmpLoop_eq_lexCompare :
    ∀ (n : Nat) (a b : List Nat) (i : Nat),
    max a.length b.length ≤ i + n →
    cmpLoop a b i n = lexCompare (a.drop i) (b.drop i) := by
  intro n
  induction n with
  | zero =>
    intro a b i h
    have hi : max a.length b.length ≤ i := by simpa using h
    have ha : a.drop i = [] :=
      List.drop_eq_nil_of_le (le_trans (le_max_left a.length b.length) hi)
    have hb : b.drop i = [] :=
      List.drop_eq_nil_of_le (le_trans (le_max_right a.length b.length) hi)
    rw [ha, hb]
    simp [cmpLoop, lexCompare]
  | succ n ih =>
    intro a b i h
    have h' : max a.length b.length ≤ (i + 1) + n := by omega
    have ea : a.drop (i + 1) = (a.drop i).tail := (List.tail_drop a i).symm
    have eb : b.drop (i + 1) = (b.drop i).tail := (List.tail_drop b i).symm
    have hrec := ih a b (i + 1) h'
    rw [ea, eb] at hrec
    simp only [cmpLoop, getD_headD_drop]
    rcases hda : a.drop i with _ | ⟨x, xs⟩ <;>
      rcases hdb : b.drop i with _ | ⟨y, ys⟩ <;>
      rw [hda, hdb] at hrec
    · simp only [List.headD_nil]
      rw [hrec]
      rfl
    · simp only [List.headD_nil, List.headD_cons, List.tail_cons,
        List.tail_nil] at hrec ⊢
      rw [lexCompare]
      rcases hc : compare 0 y <;> simp [hc, hrec]
    · simp only [List.headD_nil, List.headD_cons, List.tail_cons,
        List.tail_nil] at hrec ⊢
      rw [lexCompare]
      rcases hc : compare x 0 <;> simp [hc, hrec]
    · simp only [List.headD_cons, List.tail_cons] at hrec ⊢
      rw [lexCompare]
      rcases hc : compare x y <;> simp [hc, hrec]

theorem compare_versions_eq_lexCompare_aux (v1 v2 : String) :
    compare_versions v1 v2 = lexCompare (vparts v1) (vparts v2) := by
  unfold compare_versions
  have := cmpLoop_eq_lexCompare
    (max (vparts v1).length (vparts v2).length) (vparts v1) (vparts v2) 0
    (by omega)
  simpa using this
/-- C2 (amended): compare splits each version string on '.', parses each
dot-segment as a u32, drops every unparsable segment entirely (so later
segments shift forward into its place, see the counterexample), pads the
shorter parsed list with trailing zeros, and returns the order of the first
unequal position, Equal when all positions agree — the recursion lexCompare
states exactly that padded first-difference order, and vparts the
drop-unparsable parse. -/
theorem compare_versions_eq_lexCompare (v1 v2 : String) :
    compare_versions v1 v2 = lexCompare (vparts v1) (vparts v2) :=
  compare_versions_eq_lexCompare_aux v1 v2

theorem parseU32_lt {cs : List Char} {x : Nat} (h : parseU32 cs = some x) :
    x < u32Bound := by
  simp only [parseU32] at h
  split at h
  · split at h
    · exact absurd h (by simp)
    · split at h
      · have hx := Option.some.inj h
        show x < 2 ^ 32
        omega
      · exact absurd h (by simp)
  · split at h
    · exact absurd h (by simp)
    · split at h
      · have hx := Option.some.inj h
        show x < 2 ^ 32
        omega
      · exact absurd h (by simp)

theorem vparts_lt (v : String) : ∀ x ∈ vparts v, x < u32Bound := by
  intro x hx
  rcases List.mem_filterMap.mp hx with ⟨p, _, hp⟩
  exact parseU32_lt hp

theorem u32Bound_pos : 0 < u32Bound := by
  unfold u32Bound
  positivity

theorem valList_lt :
    ∀ (l : List Nat), (∀ x ∈ l, x < u32Bound) →
    valList l < u32Bound ^ l.length := by
  intro l
  induction l with
  | nil => intro _; simp [valList]
  | cons a as ih =>
    intro hb
    have ha : a < u32Bound := hb a (List.mem_cons_self a as)
    have hv : valList as < u32Bound ^ as.length :=
      ih (fun x hx => hb x (List.mem_cons_of_mem a hx))
    show a * u32Bound ^ as.length + valList as < u32Bound ^ (as.length + 1)
    calc a * u32Bound ^ as.length + valList as
        < (a + 1) * u32Bound ^ as.length := by
          rw [Nat.add_mul, Nat.one_mul]
          omega
      _ ≤ u32Bound * u32Bound ^ as.length :=
          Nat.mul_le_mul_right _ (by omega)
      _ = u32Bound ^ (as.length + 1) := by ring

theorem compare_add_left (c x y : Nat) :
    compare (c + x) (c + y) = compare x y := by
  rcases Nat.lt_trichotomy x y with h | h | h
  · rw [Nat.compare_eq_lt.mpr h, Nat.compare_eq_lt.mpr (by omega)]
  · subst h
    rw [Nat.compare_eq_eq.mpr rfl, Nat.compare_eq_eq.mpr rfl]
  · rw [Nat.compare_eq_gt.mpr h, Nat.compare_eq_gt.mpr (by omega)]

theorem lexCompare_eq_compare_valList :
    ∀ (l1 l2 : List Nat), l1.length = l2.length →
    (∀ x ∈ l1, x < u32Bound) → (∀ x ∈ l2, x < u32Bound) →
    lexCompare l1 l2 = compare (valList l1) (valList l2) := by
  intro l1
  induction l1 with
  | nil =>
    intro l2 hlen _ _
    have h2 : l2 = [] := List.length_eq_zero.mp hlen.symm
    subst h2
    rw [Nat.compare_eq_eq.mpr rfl]
    simp [lexCompare]
  | cons a as ih =>
    intro l2 hlen hb1 hb2
    rcases l2 with _ | ⟨b, bs⟩
    · simp at hlen
    · have hlen' : as.length = bs.length := by simpa using hlen
      have hb1' : ∀ x ∈ as, x < u32Bound :=
        fun x hx => hb1 x (List.mem_cons_of_mem a hx)
      have hb2' : ∀ x ∈ bs, x < u32Bound :=
        fun x hx => hb2 x (List.mem_cons_of_mem b hx)
      have ha : a < u32Bound := hb1 a (List.mem_cons_self a as)
      have hbb : b < u32Bound := hb2 b (List.mem_cons_self b bs)
      have hva : valList as < u32Bound ^ as.length := valList_lt as hb1'
      have hvb : valList bs < u32Bound ^ bs.length := valList_lt bs hb2'
      rw [← hlen'] at hvb
      simp only [lexCompare, valList]
      rw [← hlen']
      rcases Nat.lt_trichotomy a b with h | h | h
      · rw [Nat.compare_eq_lt.mpr h]
        have hlt : a * u32Bound ^ as.length + valList as <
            b * u32Bound ^ as.length + valList bs := by
          calc a * u32Bound ^ as.length + valList as
              < (a + 1) * u32Bound ^ as.length := by
                rw [Nat.add_mul, Nat.one_mul]
                omega
            _ ≤ b * u32Bound ^ as.length := Nat.mul_le_mul_right _ (by omega)
            _ ≤ b * u32Bound ^ as.length + valList bs := Nat.le_add_right _ _
        exact (Nat.compare_eq_lt.mpr hlt).symm
      · subst h
        rw [Nat.compare_eq_eq.mpr rfl]
        show lexCompare as bs = _
        rw [compare_add_left]
        exact ih bs hlen' hb1' hb2'
      · rw [Nat.compare_eq_gt.mpr h]
        have hgt : b * u32Bound ^ as.length + valList bs <
            a * u32Bound ^ as.length + valList as := by
          calc b * u32Bound ^ as.length + valList bs
              < (b + 1) * u32Bound ^ as.length := by
                rw [Nat.add_mul, Nat.one_mul]
                omega
            _ ≤ a * u32Bound ^ as.length := Nat.mul_le_mul_right _ (by omega)
            _ ≤ a * u32Bound ^ as.length + valList as := Nat.le_add_right _ _
        exact (Nat.compare_eq_gt.mpr hgt).symm

theorem padTo_zero (l : List Nat) : padTo 0 l = l := by
  simp [padTo]

theorem padTo_nil_eq (n : Nat) : padTo n [] = List.replicate n 0 := by
  simp [padTo]

theorem padTo_succ_cons (n : Nat) (a : Nat) (l : List Nat) :
    padTo (n + 1) (a :: l) = a :: padTo n l := by
  simp [padTo, Nat.succ_sub_succ]

theorem length_padTo {l : List Nat} {n : Nat} (h : l.length ≤ n) :
    (padTo n l).length = n := by
  simp [padTo]
  omega

theorem mem_padTo {x : Nat} {l : List Nat} {n : Nat} (h : x ∈ padTo n l) :
    x ∈ l ∨ x = 0 := by
  rcases List.mem_append.mp h with h1 | h1
  · left; exact h1
  · right; exact (List.mem_replicate.mp h1).2

theorem lexCompare_padTo :
    ∀ (n : Nat) (l1 l2 : List Nat),
    lexCompare (padTo n l1) (padTo n l2) = lexCompare l1 l2 := by
  intro n
  induction n with
  | zero => intro l1 l2; rw [padTo_zero, padTo_zero]
  | succ n ih =>
    intro l1 l2
    rcases l1 with _ | ⟨a, as⟩ <;> rcases l2 with _ | ⟨b, bs⟩
    · rw [padTo_nil_eq, List.replicate_succ, ← padTo_nil_eq n]
      simp only [lexCompare]
      have hc : compare (0 : Nat) 0 = Ordering.eq := Nat.compare_eq_eq.mpr rfl
      rw [hc]
      show lexCompare (padTo n []) (padTo n []) = Ordering.eq
      rw [ih [] []]
      simp [lexCompare]
    · rw [padTo_nil_eq, List.replicate_succ, ← padTo_nil_eq n, padTo_succ_cons]
      simp only [lexCompare]
      rcases hc : compare 0 b with _ | _ | _
      · rfl
      · exact ih [] bs
      · rfl
    · rw [padTo_nil_eq, List.replicate_succ, ← padTo_nil_eq n, padTo_succ_cons]
      simp only [lexCompare]
      rcases hc : compare a 0 with _ | _ | _
      · rfl
      · exact ih as []
      · rfl
    · rw [padTo_succ_cons, padTo_succ_cons]
      simp only [lexCompare]
      rcases hc : compare a b with _ | _ | _
      · rfl
      · exact ih as bs
      · rfl

theorem cv_eq_compare_val (v w : String) (n : Nat)
    (h1 : (vparts v).length ≤ n) (h2 : (vparts w).length ≤ n) :
    compare_versions v w =
      compare (valList (padTo n (vparts v))) (valList (padTo n (vparts w))) := by
  rw [compare_versions_eq_lexCompare_aux, ← lexCompare_padTo n]
  apply lexCompare_eq_compare_valList
  · rw [length_padTo h1, length_padTo h2]
  · intro x hx
    rcases mem_padTo hx with h | h
    · exact vparts_lt v x h
    · rw [h]; exact u32Bound_pos
  · intro x hx
    rcases mem_padTo hx with h | h
    · exact vparts_lt w x h
    · rw [h]; exact u32Bound_pos

theorem cv_self_eq (v : String) : compare_versions v v = Ordering.eq := by
  rw [cv_eq_compare_val v v (vparts v).length le_rfl le_rfl]
  exact Nat.compare_eq_eq.mpr rfl

theorem verLe_trans {a b c : String × String}
    (h1 : versionLe a b) (h2 : versionLe b c) : versionLe a c := by
  unfold versionLe at h1 h2 ⊢
  have hn1 : (vparts a.1).length ≤
      max (max (vparts a.1).length (vparts b.1).length)
        (vparts c.1).length := by omega
  have hn2 : (vparts b.1).length ≤
      max (max (vparts a.1).length (vparts b.1).length)
        (vparts c.1).length := by omega
  have hn3 : (vparts c.1).length ≤
      max (max (vparts a.1).length (vparts b.1).length)
        (vparts c.1).length := by omega
  rw [cv_eq_compare_val a.1 b.1 _ hn1 hn2] at h1
  rw [cv_eq_compare_val b.1 c.1 _ hn2 hn3] at h2
  rw [cv_eq_compare_val a.1 c.1 _ hn1 hn3]
  intro hg
  have hca := Nat.compare_eq_gt.mp hg
  have hab : ¬ _ < _ := fun hlt => h1 (Nat.compare_eq_gt.mpr hlt)
  have hbc : ¬ _ < _ := fun hlt => h2 (Nat.compare_eq_gt.mpr hlt)
  omega

theorem verLe_total (a b : String × String) :
    versionLe a b ∨ versionLe b a := by
  unfold versionLe
  have hn1 : (vparts a.1).length ≤
      max (vparts a.1).length (vparts b.1).length := by omega
  have hn2 : (vparts b.1).length ≤
      max (vparts a.1).length (vparts b.1).length := by omega
  rw [cv_eq_compare_val a.1 b.1 _ hn1 hn2,
    cv_eq_compare_val b.1 a.1 _ hn2 hn1]
  by_cases h : valList (padTo (max (vparts a.1).length (vparts b.1).length)
      (vparts a.1)) ≤ valList (padTo (max (vparts a.1).length
      (vparts b.1).length) (vparts b.1))
  · left
    intro hg
    have := Nat.compare_eq_gt.mp hg
    omega
  · right
    intro hg
    have := Nat.compare_eq_gt.mp hg
    omega

theorem sortGroup_perm (vs : List (String × String)) :
    (sortGroup vs).Perm vs :=
  List.perm_insertionSort versionLe vs

theorem sortGroup_sorted (vs : List (String × String)) :
    List.Sorted versionLe (sortGroup vs) := by
  haveI : IsTotal (String × String) versionLe := ⟨verLe_total⟩
  haveI : IsTrans (String × String) versionLe :=
    ⟨fun _ _ _ h1 h2 => verLe_trans h1 h2⟩
  exact List.sorted_insertionSort versionLe vs

theorem sortGroup_ne_nil {vs : List (String × String)} (h : ¬ vs = []) :
    ¬ sortGroup vs = [] := by
  intro h0
  have hlen := (sortGroup_perm vs).length_eq
  rw [h0] at hlen
  rcases vs with _ | ⟨x, xs⟩
  · exact h rfl
  · simp at hlen

theorem keptVersion_eq_getLast {vs : List (String × String)}
    (h : ¬ sortGroup vs = []) :
    keptVersion vs = ((sortGroup vs).getLast h).1 := by
  unfold keptVersion
  rw [List.getLast?_eq_getLast _ h]
  rfl

theorem processGroupPairs_mem (name : String) (vs : List (String × String))
    (ver p : String) :
    (ver, p) ∈ processGroupPairs name vs ↔
      (name ∈ asm_libraries ∧ 1 < vs.length ∧ (ver, p) ∈ vs ∧
        ¬ ver = keptVersion vs) := by
  unfold processGroupPairs
  by_cases hn : asm_libraries.contains name
  · rw [if_neg (by rw [hn]; simp)]
    have hnm : name ∈ asm_libraries := List.elem_iff.mp hn
    by_cases hl : 1 < vs.length
    · rw [if_pos hl]
      have hvne : ¬ vs = [] := by
        intro h0
        rw [h0] at hl
        simp at hl
      have hsne : ¬ sortGroup vs = [] := sortGroup_ne_nil hvne
      constructor
      · intro hmem
        have h2 := List.mem_filter.mp hmem
        have hin_vs : (ver, p) ∈ vs :=
          (sortGroup_perm vs).mem_iff.mp (List.mem_of_mem_take h2.1)
        exact ⟨hnm, hl, hin_vs, by simpa using h2.2⟩
      · rintro ⟨_, _, hmem, hne⟩
        have hin_sorted : (ver, p) ∈ sortGroup vs :=
          (sortGroup_perm vs).mem_iff.mpr hmem
        have hsplit := List.dropLast_append_getLast hsne
        have hin2 : (ver, p) ∈ (sortGroup vs).dropLast := by
          rcases List.mem_append.mp (by rw [hsplit]; exact hin_sorted) with
            h | h
          · exact h
          · exfalso
            apply hne
            rw [keptVersion_eq_getLast hsne]
            have heq : (ver, p) = (sortGroup vs).getLast hsne := by
              simpa using h
            rw [← heq]
        rw [List.dropLast_eq_take] at hin2
        exact List.mem_filter.mpr ⟨hin2, by simpa using hne⟩
    · rw [if_neg hl]
      simp [hl]
  · have hnf : asm_libraries.contains name = false := by
      rw [Bool.eq_false_iff]
      exact hn
    rw [if_pos (by rw [hnf]; rfl)]
    have hnm : ¬ name ∈ asm_libraries := by
      intro hm
      exact hn (List.elem_iff.mpr hm)
    simp [hnm]

theorem keptVersion_max (vs : List (String × String)) :
    ∀ v q, (v, q) ∈ vs →
    compare_versions v (keptVersion vs) ≠ Ordering.gt := by
  intro v q hm
  have hvne : ¬ vs = [] := by
    intro h0
    rw [h0] at hm
    simp at hm
  have hsne : ¬ sortGroup vs = [] := sortGroup_ne_nil hvne
  have hin : (v, q) ∈ sortGroup vs := (sortGroup_perm vs).mem_iff.mpr hm
  have hsplit := List.dropLast_append_getLast hsne
  have hsorted := sortGroup_sorted vs
  rw [keptVersion_eq_getLast hsne]
  rcases List.mem_append.mp (by rw [hsplit]; exact hin) with h | h
  · have hpw : List.Pairwise versionLe
        ((sortGroup vs).dropLast ++ [(sortGroup vs).getLast hsne]) := by
      rw [hsplit]
      exact hsorted
    have hle := (List.pairwise_append.mp hpw).2.2 (v, q) h
      ((sortGroup vs).getLast hsne) (List.mem_singleton_self _)
    exact hle
  · have heq : (v, q) = (sortGroup vs).getLast hsne := by simpa using h
    have hv : ((sortGroup vs).getLast hsne).1 = v := by rw [← heq]
    rw [hv, cv_self_eq]
    simp

/-- C6 (amended): for every library directory listing, within each group of
jar files sharing an inferred logical name, the deduplication pass removes a
file exactly when the group's name is on the allow-list, the group has more
than one member, and the file's version string differs from the version of
the file the code keeps (the last element of the stable ascending version
sort) — so files tying with the kept version string survive, see the
counterexample — and the kept version is maximal in the group under the
version comparator; files grouped under a name off the allow-list are never
removed (the iff's right side fails).  The third conjunct ties the per-group
removals to the whole directory pass. -/
theorem deduplicate_libraries_spec (files : List (String × String)) (name : String)
    (vs : List (String × String)) (ver p : String)
    (_hg : (name, vs) ∈ groupJars files) :
    ((ver, p) ∈ processGroupPairs name vs ↔
      (name ∈ asm_libraries ∧ 1 < vs.length ∧ (ver, p) ∈ vs ∧
        ¬ ver = keptVersion vs)) ∧
    (∀ v q, (v, q) ∈ vs →
      compare_versions v (keptVersion vs) ≠ Ordering.gt) ∧
    ((ver, p) ∈ deduplicateRemoved files ↔
      ∃ g ∈ groupJars files, (ver, p) ∈ processGroupPairs g.1 g.2) :=
  ⟨processGroupPairs_mem name vs ver p, keptVersion_max vs,
    by simp [deduplicateRemoved, List.mem_flatMap]⟩

/-- Witness for C6: the spec's example — a directory holding asm-9.1.jar and
asm-9.6.jar has asm-9.1.jar removed. -/
theorem deduplicate_libraries_spec_witness :
    ("9.1", "pa") ∈ processGroupPairs "asm" [("9.1", "pa"), ("9.6", "pb")] :=
  ((deduplicate_libraries_spec [("asm-9.1.jar", "pa"), ("asm-9.6.jar", "pb")]
      "asm" [("9.1", "pa"), ("9.6", "pb")] "9.1" "pa" (by decide)).1).mpr
    (by decide)
end OVCLI
